import Mathlib

/-!
Verification of the NanoDet post-processing pipeline (src/nanodet/detect.py).

Numeric modelling conventions:
* Machine floating-point values are modelled as exact rationals (`ℚ`).
* `np.exp` is modelled as an abstract strictly positive function `ℚ → ℚ`
  passed as a parameter: the only fact the pipeline relies on is that the
  exponential of a float is a positive number.
* Python `int(...)` (truncation towards zero) is modelled by `pytrunc`.
* `numpy.argsort` is called with its default kind, which numpy documents as
  NOT stable: the relative order of equal elements is unspecified.  It is
  therefore modelled relationally (`IsArgsortOf`): any permutation of the
  index range along which the scores are nondecreasing is a possible result,
  and a guarantee about the pruner must hold for every such permutation.
-/

/-- `math.ceil(a / b)` on natural inputs, as used in `NanoDet.__init__`. -/
def ceilDiv (a b : ℕ) : ℕ := (a + b - 1) / b

/-- Row-major flattening of `np.meshgrid(xs, ys)` followed by
`np.stack((xv, yv), axis=-1)` on the flattened coordinate arrays:
entry `r * xs.length + c` is `(xs[c], ys[r])`. -/
def meshgrid_flat (xs ys : List ℕ) : List (ℕ × ℕ) :=
  (ys.map (fun y => xs.map (fun x => (x, y)))).flatten

/-- `NanoDet._make_grid(featmap_size, stride)`: `shift_x = arange(feat_w) * stride`,
`shift_y = arange(feat_h) * stride`, meshgrid, flatten, stack. -/
def make_grid (feat_h feat_w stride : ℕ) : List (ℕ × ℕ) :=
  meshgrid_flat ((List.range feat_w).map (· * stride))
    ((List.range feat_h).map (· * stride))

/-- The fixed stride tuple `(8, 16, 32, 64)` from `NanoDet.__init__`. -/
def nanodetStrides : List ℕ := [8, 16, 32, 64]

/-- The per-level anchor grids built in `NanoDet.__init__`:
for each stride `s`, a grid of size `ceil(input_h/s) × ceil(input_w/s)`. -/
def mlvl_anchors (input_h input_w : ℕ) : List (List (ℕ × ℕ)) :=
  nanodetStrides.map (fun s => make_grid (ceilDiv input_h s) (ceilDiv input_w s) s)

/- ### Distribution decoding (`NanoDet.softmax`, post_process lines 206-216) -/

/-- `NanoDet.softmax` on one row of logits: `x_exp = np.exp(x)`,
`x_sum = np.sum(x_exp)`, `s = x_exp / x_sum`.  The floating-point `np.exp` is
modelled by an abstract function `e : ℚ → ℚ`; the theorems below assume only
that `e` is strictly positive, which holds for the exponential on every finite
float input. -/
def softmaxRow (e : ℚ → ℚ) {m : ℕ} (x : Fin m → ℚ) : Fin m → ℚ :=
  fun i => e (x i) / ∑ j, e (x j)

/-- Expected value of one decoded edge distribution over the support
`{0, …, reg_max}`: `np.dot(softmax(bbox_pred), project)` with
`project = np.arange(reg_max + 1)`. -/
def expectedVal (e : ℚ → ℚ) {n : ℕ} (x : Fin (n + 1) → ℚ) : ℚ :=
  ∑ i, softmaxRow e x i * (i : ℚ)

/-- One decoded distance in tensor-pixel units: the expected value multiplied
by the level's stride (`bbox_pred *= stride`, post_process line 216). -/
def decodeDist (e : ℚ → ℚ) {n : ℕ} (x : Fin (n + 1) → ℚ) (stride : ℚ) : ℚ :=
  expectedVal e x * stride

/-- All four decoded distances of one anchor (left, top, right, bottom). -/
def decode4 (e : ℚ → ℚ) {n : ℕ} (row : Fin 4 → Fin (n + 1) → ℚ) (stride : ℚ) :
    ℚ × ℚ × ℚ × ℚ :=
  (decodeDist e (row 0) stride, decodeDist e (row 1) stride,
   decodeDist e (row 2) stride, decodeDist e (row 3) stride)

/-- `np.clip(v, lo, hi)`, i.e. `min(max(v, lo), hi)`. -/
def npclip (v lo hi : ℚ) : ℚ := min (max v lo) hi

/-- `NanoDet.distance2bbox`: `x1 = points[:,0] - distance[:,0]`,
`y1 = points[:,1] - distance[:,1]`, `x2 = points[:,0] + distance[:,2]`,
`y2 = points[:,1] + distance[:,3]`, clipped to `[0, max_shape[1]]` on x and
`[0, max_shape[0]]` on y when `max_shape` is given; empty inputs give an
empty box set. -/
def distance2bbox (points : List (ℚ × ℚ)) (distance : List (ℚ × ℚ × ℚ × ℚ))
    (maxShape : Option (ℚ × ℚ)) : List (ℚ × ℚ × ℚ × ℚ) :=
  if points.length = 0 ∨ distance.length = 0 then []
  else
    List.zipWith (fun p d =>
      let x1 := p.1 - d.1
      let y1 := p.2 - d.2.1
      let x2 := p.1 + d.2.2.1
      let y2 := p.2 + d.2.2.2
      match maxShape with
      | some ms => (npclip x1 0 ms.2, npclip y1 0 ms.1, npclip x2 0 ms.2, npclip y2 0 ms.1)
      | none => (x1, y1, x2, y2)) points distance

/- ### A stable insertion sort, used to model every sorting step -/

/-- Stable insertion of `x` into `l`: `x` is placed before the first element
`y` that does not strictly precede it (`lt y x = false`). -/
def insertS {α : Type} (lt : α → α → Bool) (x : α) : List α → List α
  | [] => [x]
  | y :: ys => if lt y x then y :: insertS lt x ys else x :: y :: ys

/-- Stable insertion sort: an element keeps its position relative to a later
element unless the later one strictly precedes it. -/
def isort {α : Type} (lt : α → α → Bool) : List α → List α
  | [] => []
  | x :: l => insertS lt x (isort lt l)

/- ### Multi-level merging and suppression (post_process lines 237-255) -/

/-- A merged candidate entering suppression: box `(x1, y1, x2, y2)` in tensor
space, confidence (the per-anchor maximum class score) and class id. -/
structure Cand where
  box : ℚ × ℚ × ℚ × ℚ
  conf : ℚ
  cls : ℕ
deriving DecidableEq

/-- Signed area term `(x2 - x1) * (y2 - y1)` used by the IoU. -/
def boxArea (b : ℚ × ℚ × ℚ × ℚ) : ℚ := (b.2.2.1 - b.1) * (b.2.2.2 - b.2.1)

/-- Modelled from the spec: Intersection-over-Union between two boxes (glossary
and §4.5), the suppression criterion used by `cv2.dnn.NMSBoxes`, whose
implementation is external to this repository. -/
def iou (a b : ℚ × ℚ × ℚ × ℚ) : ℚ :=
  let interW := max 0 (min a.2.2.1 b.2.2.1 - max a.1 b.1)
  let interH := max 0 (min a.2.2.2 b.2.2.2 - max a.2.1 b.2.1)
  let inter := interW * interH
  inter / (boxArea a + boxArea b - inter)

/-- Comparator sorting candidates by confidence descending, stable. -/
def ltConf (a b : Cand) : Bool := decide (b.conf < a.conf)

/-- Modelled from the spec (§4.5 steps 3-4): greedy suppression.  Select the
first (highest-confidence) remaining candidate, emit it, remove every other
remaining candidate whose IoU with it exceeds `iouTh`, repeat. -/
def suppress (iouTh : ℚ) : List Cand → List Cand
  | [] => []
  | c :: rest =>
    c :: suppress iouTh (rest.filter (fun d => decide (iou c.box d.box ≤ iouTh)))
termination_by l => l.length
decreasing_by
simpa using Nat.lt_succ_of_le (List.length_filter_le _ _)

/-- Modelled from the spec (§4.5): `cv2.dnn.NMSBoxes(boxes, confidences,
prob_threshold, iou_threshold)` — discard every candidate whose confidence is
below `probTh`, sort the remainder by confidence descending (stable, so ties
are deterministic), then greedily suppress by IoU.  The OpenCV implementation
is external to this repository; this definition follows §4.5's description. -/
def nmsBoxesM (probTh iouTh : ℚ) (cands : List Cand) : List Cand :=
  suppress iouTh (isort ltConf (cands.filter (fun c => decide (probTh ≤ c.conf))))

/-- `np.max(row)`: the per-anchor maximum class score (post_process line 240). -/
def rowConf (row : List ℚ) : ℚ := row.foldl max (row.headD 0)

/-- `np.argmax(row)`: index of the first maximal class score (line 239). -/
def rowArgmax (row : List ℚ) : ℕ := row.findIdx (fun v => decide (rowConf row ≤ v))

/-- The merged candidate list built in post_process lines 237-240 from the
concatenated boxes and class-score rows. -/
def mkCands (boxes : List (ℚ × ℚ × ℚ × ℚ)) (scores : List (List ℚ)) : List Cand :=
  List.zipWith (fun b row => ⟨b, rowConf row, rowArgmax row⟩) boxes scores

/-- The suppression stage of `NanoDet.post_process` (lines 237-255): per-anchor
max/argmax, then NMS; the returned detections are the surviving candidates. -/
def post_process_dets (boxes : List (ℚ × ℚ × ℚ × ℚ)) (scores : List (List ℚ))
    (probTh iouTh : ℚ) : List Cand :=
  nmsBoxesM probTh iouTh (mkCands boxes scores)

/- ### The per-level pruner (post_process lines 218-224) -/

/-- The documented contract of `max_scores.argsort()` at post_process line 221.
The call passes no `kind`, so numpy uses its default introsort, which numpy
documents as NOT stable: the result is only guaranteed to be a permutation of
the index range along which the scores are nondecreasing; the relative order
of equal scores is unspecified.  The sort is therefore modelled relationally:
`inds` is a possible result of `scores.argsort()` iff this predicate holds,
and a guarantee about the pruner must hold for every such `inds`. -/
def IsArgsortOf (scores : List ℚ) (inds : List ℕ) : Prop :=
  inds.Perm (List.range scores.length) ∧
    inds.Pairwise (fun i j => scores.getD i 0 ≤ scores.getD j 0)

/-- `topk_inds = max_scores.argsort()[::-1][0:nms_pre]` with `nms_pre = 1000`
(post_process line 221), applied to whatever index order the (unstable)
argsort returned: reverse, then keep the first 1000. -/
def topkOf (inds : List ℕ) : List ℕ := inds.reverse.take 1000

/-- Modelled from the spec (§4.4, claim C3): rank descending by score with ties
broken stably by original index so that the lower index wins. -/
def ltClaimDesc (a b : ℕ × ℚ) : Bool :=
  decide (b.2 < a.2 ∨ (a.2 = b.2 ∧ a.1 < b.1))

/-- The pruner order claimed in §4.4: score descending, lower index first on
ties, top 1000 retained. -/
def claimPruneIdx (scores : List ℚ) : List ℕ :=
  ((isort ltClaimDesc scores.enum).map (·.1)).take 1000

/- ### Coordinate remapping (`NanoDet.detect` lines 302-309) and resizing -/

/-- Python `int(q)`: truncation towards zero. -/
def pytrunc (q : ℚ) : ℤ := if 0 ≤ q then ⌊q⌋ else -⌊-q⌋

/-- The per-detection coordinate remapping of `NanoDet.detect` (lines 302-309):
`xmin = max(int((x1 - left) * ratiow), 0)`, `ymin = max(int((y1 - top) * ratioh), 0)`,
`xmax = min(int((x2 - left) * ratiow), srcw)`, `ymax = min(int((y2 - top) * ratioh), srch)`,
where `rW`/`rH` are the per-axis inverse scale factors. -/
def remapBox (b : ℚ × ℚ × ℚ × ℚ) (top left rH rW : ℚ) (srch srcw : ℤ) :
    ℤ × ℤ × ℤ × ℤ :=
  (max (pytrunc ((b.1 - left) * rW)) 0,
   max (pytrunc ((b.2.1 - top) * rH)) 0,
   min (pytrunc ((b.2.2.1 - left) * rW)) srcw,
   min (pytrunc ((b.2.2.2 - top) * rH)) srch)

/-- Modelled from the spec (§4.6, claim C8): remap one coordinate by
subtracting the padding, scaling, clipping to `[0, bound]`, and rounding to
integer pixels. -/
def specRemapCoord (v pad r : ℚ) (bound : ℤ) : ℤ :=
  pytrunc (min (max ((v - pad) * r) 0) (bound : ℚ))

/-- Modelled from the spec (claim C10): remapping with no padding subtraction,
pure per-axis scaling. -/
def scaleRemapBox (b : ℚ × ℚ × ℚ × ℚ) (rH rW : ℚ) (srch srcw : ℤ) :
    ℤ × ℤ × ℤ × ℤ :=
  (max (pytrunc (b.1 * rW)) 0,
   max (pytrunc (b.2.1 * rH)) 0,
   min (pytrunc (b.2.2.1 * rW)) srcw,
   min (pytrunc (b.2.2.2 * rH)) srch)

/-- The geometry of `NanoDet.resize_image` (lines 138-190): given the model
input shape, the source image shape and the `keep_ratio` flag, returns
`(newh, neww, top, left)`.  Pixel resampling itself is external (cv2). -/
def resize_geometry (input_h input_w srch srcw : ℕ) (keep : Bool) :
    ℕ × ℕ × ℕ × ℕ :=
  if keep ∧ srch ≠ srcw then
    let hw_scale : ℚ := (srch : ℚ) / (srcw : ℚ)
    if 1 < hw_scale then
      let neww := (pytrunc ((input_w : ℚ) / hw_scale)).toNat
      let left := (pytrunc (((input_w : ℚ) - (neww : ℚ)) * (1 / 2))).toNat
      (input_h, neww, 0, left)
    else
      let newh := (pytrunc ((input_h : ℚ) * hw_scale)).toNat
      let top := (pytrunc (((input_h : ℚ) - (newh : ℚ)) * (1 / 2))).toNat
      (newh, input_w, top, 0)
  else (input_h, input_w, 0, 0)

/- ### Configuration (`NanoDet.__init__`) -/

/-- The configuration assembled by `NanoDet.__init__` that the claims refer
to.  `keepAspect` models the source attribute `keep_ratio`. -/
structure NanoDetConfig where
  prob_threshold : ℚ
  iou_threshold : ℚ
  keepAspect : Bool
  strideList : List ℕ
deriving DecidableEq

/-- `NanoDet.__init__` restricted to its threshold and flag handling: the
thresholds are stored without any validation, `keep_ratio` is set to `False`
(line 90), and construction never fails on account of the thresholds (model
loading and label reading are external I/O, out of scope).  The `Except`
result records that the constructor has no error path of its own here. -/
def nanodetInit (probTh iouTh : ℚ) : Except Unit NanoDetConfig :=
  .ok ⟨probTh, iouTh, false, nanodetStrides⟩

/- ### Helper lemmas for the anchor grid -/

theorem meshgrid_flat_length (xs ys : List ℕ) :
    (meshgrid_flat xs ys).length = ys.length * xs.length := by
  unfold meshgrid_flat
  rw [List.length_flatten, List.map_map]
  have h : (ys.map (fun y => (xs.map (fun x => (x, y))).length)) =
      List.replicate ys.length xs.length := by
    rw [List.eq_replicate_iff]
    constructor
    · simp
    · intro b hb
      obtain ⟨y, _, rfl⟩ := List.mem_map.mp hb
      simp
  rw [show (List.map (List.length ∘ fun y => xs.map (fun x => (x, y))) ys) =
      (ys.map (fun y => (xs.map (fun x => (x, y))).length)) from rfl, h]
  simp [List.sum_replicate, mul_comm]

theorem flatten_getElem_rows {α : Type} (w : ℕ) :
    ∀ (L : List (List α)) (i c : ℕ), (∀ l ∈ L, l.length = w) → i < L.length → c < w →
      L.flatten[i * w + c]? = L[i]?.bind (fun row => row[c]?) := by
  intro L
  induction L with
  | nil => intro i c _ hi _; simp at hi
  | cons row rest ih =>
    intro i c hlen hi hc
    have hrow : row.length = w := hlen row (by simp)
    cases i with
    | zero =>
      simp only [List.flatten_cons, Nat.zero_mul, Nat.zero_add]
      rw [List.getElem?_append_left (by omega)]
      simp
    | succ i =>
      have hidx : (i + 1) * w + c = row.length + (i * w + c) := by
        rw [hrow]; ring
      simp only [List.flatten_cons]
      rw [hidx, List.getElem?_append_right (by omega)]
      have := ih i c (fun l hl => hlen l (by simp [hl])) (by simpa using hi) hc
      simpa using this

/-- Claim C1: for stride `s` and feature size `(h, w)` with `h = ceil(input_h/s)`,
`w = ceil(input_w/s)`, the anchor grid has exactly `h * w` points and the point at
flattened index `r * w + c` is `(c * s, r * s)` for all `r < h`, `c < w`. -/
theorem anchor_grid_spec (input_h input_w s r c : ℕ)
    (hr : r < ceilDiv input_h s) (hc : c < ceilDiv input_w s) :
    (make_grid (ceilDiv input_h s) (ceilDiv input_w s) s).length =
        ceilDiv input_h s * ceilDiv input_w s ∧
      (make_grid (ceilDiv input_h s) (ceilDiv input_w s) s)[r * ceilDiv input_w s + c]? =
        some (c * s, r * s) := by
  set h := ceilDiv input_h s
  set w := ceilDiv input_w s
  constructor
  · unfold make_grid
    rw [meshgrid_flat_length]
    simp
  · unfold make_grid meshgrid_flat
    set ys := (List.range h).map (· * s) with hys
    set L := ys.map (fun y => ((List.range w).map (· * s)).map (fun x => (x, y))) with hL
    have hrows : ∀ l ∈ L, l.length = w := by
      intro l hl
      obtain ⟨y, _, rfl⟩ := List.mem_map.mp hl
      simp
    have hLlen : L.length = h := by simp [hL, hys]
    have := flatten_getElem_rows w L r c hrows (by omega) hc
    rw [this]
    have hr' : r < L.length := by omega
    have hLr : L[r]? = some (((List.range w).map (· * s)).map (fun x => (x, r * s))) := by
      rw [List.getElem?_eq_getElem hr']
      simp [hL, hys, List.getElem_map, List.getElem_range, hr]
    rw [hLr]
    simp [List.getElem?_map, List.getElem?_range, hc]

/-- Witness for `anchor_grid_spec` at input shape 64×64, stride 8, r = 1, c = 2. -/
theorem anchor_grid_spec_witness :
    (make_grid (ceilDiv 64 8) (ceilDiv 64 8) 8).length = ceilDiv 64 8 * ceilDiv 64 8 ∧
      (make_grid (ceilDiv 64 8) (ceilDiv 64 8) 8)[1 * ceilDiv 64 8 + 2]? =
        some (2 * 8, 1 * 8) :=
  anchor_grid_spec 64 64 8 1 2 (by decide) (by decide)

/- ### Helper lemmas for the distribution decoder -/

theorem softmaxRow_sum_one (e : ℚ → ℚ) (he : ∀ t, 0 < e t) {n : ℕ}
    (x : Fin (n + 1) → ℚ) : ∑ i, softmaxRow e x i = 1 := by
  have hpos : 0 < ∑ j, e (x j) :=
    Finset.sum_pos (fun j _ => he (x j)) ⟨0, Finset.mem_univ 0⟩
  unfold softmaxRow
  rw [← Finset.sum_div]
  exact div_self (ne_of_gt hpos)

theorem softmaxRow_nonneg (e : ℚ → ℚ) (he : ∀ t, 0 < e t) {n : ℕ}
    (x : Fin (n + 1) → ℚ) (i : Fin (n + 1)) : 0 ≤ softmaxRow e x i := by
  have hpos : (0 : ℚ) ≤ ∑ j, e (x j) :=
    le_of_lt (Finset.sum_pos (fun j _ => he (x j)) ⟨0, Finset.mem_univ 0⟩)
  exact div_nonneg (le_of_lt (he (x i))) hpos

theorem expectedVal_nonneg (e : ℚ → ℚ) (he : ∀ t, 0 < e t) {n : ℕ}
    (x : Fin (n + 1) → ℚ) : 0 ≤ expectedVal e x :=
  Finset.sum_nonneg fun i _ =>
    mul_nonneg (softmaxRow_nonneg e he x i) (by positivity)

theorem expectedVal_le (e : ℚ → ℚ) (he : ∀ t, 0 < e t) {n : ℕ}
    (x : Fin (n + 1) → ℚ) : expectedVal e x ≤ (n : ℚ) := by
  unfold expectedVal
  calc ∑ i, softmaxRow e x i * (i : ℚ)
      ≤ ∑ i : Fin (n + 1), softmaxRow e x i * (n : ℚ) := by
        refine Finset.sum_le_sum fun i _ => ?_
        refine mul_le_mul_of_nonneg_left ?_ (softmaxRow_nonneg e he x i)
        exact_mod_cast Nat.cast_le.mpr (Fin.is_le i)
    _ = (∑ i, softmaxRow e x i) * (n : ℚ) := (Finset.sum_mul _ _ _).symm
    _ = (n : ℚ) := by rw [softmaxRow_sum_one e he x, one_mul]

/-- Claim C2: for every logit vector of length `reg_max + 1`, the softmax output
is a probability vector (nonnegative entries summing to 1), its expected value
over the support `{0, …, reg_max}` lies within `[0, reg_max]`, and the decoded
offset is that expected value multiplied by the level's stride. -/
theorem distribution_decoder_spec (e : ℚ → ℚ) (he : ∀ t, 0 < e t) (n : ℕ)
    (x : Fin (n + 1) → ℚ) (stride : ℚ) :
    (∑ i, softmaxRow e x i) = 1 ∧ (∀ i, 0 ≤ softmaxRow e x i) ∧
      0 ≤ expectedVal e x ∧ expectedVal e x ≤ (n : ℚ) ∧
      decodeDist e x stride = expectedVal e x * stride :=
  ⟨softmaxRow_sum_one e he x, softmaxRow_nonneg e he x,
   expectedVal_nonneg e he x, expectedVal_le e he x, rfl⟩

/-- Witness for `distribution_decoder_spec`: a constant positive exponential,
`reg_max = 7`, zero logits, stride 8. -/
theorem distribution_decoder_spec_witness :
    (∑ i, softmaxRow (fun _ => (1 : ℚ)) (fun _ : Fin 8 => (0 : ℚ)) i) = 1 ∧
      (∀ i, 0 ≤ softmaxRow (fun _ => (1 : ℚ)) (fun _ : Fin 8 => (0 : ℚ)) i) ∧
      0 ≤ expectedVal (fun _ => (1 : ℚ)) (fun _ : Fin 8 => (0 : ℚ)) ∧
      expectedVal (fun _ => (1 : ℚ)) (fun _ : Fin 8 => (0 : ℚ)) ≤ ((7 : ℕ) : ℚ) ∧
      decodeDist (fun _ => (1 : ℚ)) (fun _ : Fin 8 => (0 : ℚ)) 8 =
        expectedVal (fun _ => (1 : ℚ)) (fun _ : Fin 8 => (0 : ℚ)) * 8 :=
  distribution_decoder_spec (fun _ => 1) (fun _ => one_pos) 7 (fun _ => 0) 8

/- ### Helper lemmas for box reconstruction -/

theorem mem_zipWith_elim {α β γ : Type} (f : α → β → γ) :
    ∀ (l1 : List α) (l2 : List β) (b : γ), b ∈ List.zipWith f l1 l2 →
      ∃ a c, a ∈ l1 ∧ c ∈ l2 ∧ b = f a c := by
  intro l1
  induction l1 with
  | nil => simp
  | cons a l1 ih =>
    intro l2 b hb
    cases l2 with
    | nil => simp at hb
    | cons c l2 =>
      simp only [List.zipWith_cons_cons, List.mem_cons] at hb
      rcases hb with rfl | hb
      · exact ⟨a, c, by simp, by simp, rfl⟩
      · obtain ⟨a', c', ha, hc, rfl⟩ := ih l2 b hb
        exact ⟨a', c', by simp [ha], by simp [hc], rfl⟩

theorem npclip_mono (v w lo hi : ℚ) (h : v ≤ w) : npclip v lo hi ≤ npclip w lo hi :=
  min_le_min (max_le_max h (le_refl lo)) (le_refl hi)

/-- Claim C9 (implicit invariant): every box reconstructed from decoded
distances satisfies `x1 ≤ x2` and `y1 ≤ y2`, because each decoded distance is
an expected value of a softmax distribution over `{0, …, reg_max}` scaled by a
nonnegative stride, and clipping both coordinates to the same interval
preserves the ordering. -/
theorem reconstructed_box_ordered (e : ℚ → ℚ) (he : ∀ t, 0 < e t) (n : ℕ)
    (points : List (ℚ × ℚ)) (rows : List (Fin 4 → Fin (n + 1) → ℚ)) (stride : ℚ)
    (hs : 0 ≤ stride) (maxShape : Option (ℚ × ℚ)) (b : ℚ × ℚ × ℚ × ℚ)
    (hb : b ∈ distance2bbox points (rows.map (fun row => decode4 e row stride)) maxShape) :
    b.1 ≤ b.2.2.1 ∧ b.2.1 ≤ b.2.2.2 := by
  unfold distance2bbox at hb
  split at hb
  · simp at hb
  · obtain ⟨p, d, _, hd, rfl⟩ := mem_zipWith_elim _ _ _ b hb
    obtain ⟨row, _, rfl⟩ := List.mem_map.mp hd
    have h1 : 0 ≤ (decode4 e row stride).1 :=
      mul_nonneg (expectedVal_nonneg e he (row 0)) hs
    have h2 : 0 ≤ (decode4 e row stride).2.1 :=
      mul_nonneg (expectedVal_nonneg e he (row 1)) hs
    have h3 : 0 ≤ (decode4 e row stride).2.2.1 :=
      mul_nonneg (expectedVal_nonneg e he (row 2)) hs
    have h4 : 0 ≤ (decode4 e row stride).2.2.2 :=
      mul_nonneg (expectedVal_nonneg e he (row 3)) hs
    have hx : p.1 - (decode4 e row stride).1 ≤ p.1 + (decode4 e row stride).2.2.1 :=
      le_trans (sub_le_self p.1 h1) (le_add_of_nonneg_right h3)
    have hy : p.2 - (decode4 e row stride).2.1 ≤ p.2 + (decode4 e row stride).2.2.2 :=
      le_trans (sub_le_self p.2 h2) (le_add_of_nonneg_right h4)
    cases maxShape with
    | none => exact ⟨hx, hy⟩
    | some ms => exact ⟨npclip_mono _ _ _ _ hx, npclip_mono _ _ _ _ hy⟩

/-- Witness for `reconstructed_box_ordered`: one anchor at the origin, zero
logits with `reg_max = 0`, stride 8, no clipping. -/
theorem reconstructed_box_ordered_witness :
    ((0, 0, 0, 0) : ℚ × ℚ × ℚ × ℚ).1 ≤ ((0, 0, 0, 0) : ℚ × ℚ × ℚ × ℚ).2.2.1 ∧
      ((0, 0, 0, 0) : ℚ × ℚ × ℚ × ℚ).2.1 ≤ ((0, 0, 0, 0) : ℚ × ℚ × ℚ × ℚ).2.2.2 :=
  reconstructed_box_ordered (fun _ => 1) (fun _ => one_pos) 0 [(0, 0)]
    [fun _ _ => 0] 8 (by norm_num) none (0, 0, 0, 0) (by
      have h0 : expectedVal (fun _ => (1 : ℚ)) (fun _ : Fin 1 => (0 : ℚ)) = 0 := by
        simp [expectedVal]
      simp [distance2bbox, decode4, decodeDist, h0])

/- ### Generic lemmas about the stable insertion sort -/

theorem insertS_perm {α : Type} (lt : α → α → Bool) (x : α) :
    ∀ l : List α, (insertS lt x l).Perm (x :: l) := by
  intro l
  induction l with
  | nil => simp [insertS]
  | cons y ys ih =>
    simp only [insertS]
    split
    · exact (ih.cons y).trans (List.Perm.swap x y ys)
    · exact List.Perm.refl _

theorem isort_perm {α : Type} (lt : α → α → Bool) :
    ∀ l : List α, (isort lt l).Perm l := by
  intro l
  induction l with
  | nil => simp [isort]
  | cons x l ih => exact (insertS_perm lt x (isort lt l)).trans (ih.cons x)

theorem insertS_pairwise {α : Type} (lt : α → α → Bool)
    (hasym : ∀ a b, lt a b = true → lt b a = false)
    (hntrans : ∀ a b c, lt b a = false → lt c b = false → lt c a = false)
    (x : α) :
    ∀ l : List α, l.Pairwise (fun a b => lt b a = false) →
      (insertS lt x l).Pairwise (fun a b => lt b a = false) := by
  intro l
  induction l with
  | nil => intro _; simp [insertS]
  | cons y ys ih =>
    intro hp
    rw [List.pairwise_cons] at hp
    obtain ⟨hy, hys⟩ := hp
    simp only [insertS]
    split
    case isTrue h =>
      rw [List.pairwise_cons]
      refine ⟨?_, ih hys⟩
      intro z hz
      have hz2 : z ∈ x :: ys := (insertS_perm lt x ys).mem_iff.mp hz
      rcases List.mem_cons.mp hz2 with rfl | hz3
      · exact hasym y z h
      · exact hy z hz3
    case isFalse h =>
      have hyx : lt y x = false := by simpa using h
      rw [List.pairwise_cons]
      constructor
      · intro z hz
        rcases List.mem_cons.mp hz with rfl | hz3
        · exact hyx
        · exact hntrans x y z hyx (hy z hz3)
      · exact List.pairwise_cons.mpr ⟨hy, hys⟩

theorem isort_pairwise {α : Type} (lt : α → α → Bool)
    (hasym : ∀ a b, lt a b = true → lt b a = false)
    (hntrans : ∀ a b c, lt b a = false → lt c b = false → lt c a = false) :
    ∀ l : List α, (isort lt l).Pairwise (fun a b => lt b a = false) := by
  intro l
  induction l with
  | nil => simp [isort]
  | cons x l ih => exact insertS_pairwise lt hasym hntrans x _ ih

theorem insertS_eq_cons {α : Type} (lt : α → α → Bool) (x : α) :
    ∀ l : List α, (∀ z, l.head? = some z → lt z x = false) →
      insertS lt x l = x :: l := by
  intro l h
  cases l with
  | nil => rfl
  | cons y ys => simp [insertS, h y rfl]

theorem isort_eq_self {α : Type} (lt : α → α → Bool) :
    ∀ l : List α, l.Pairwise (fun a b => lt b a = false) → isort lt l = l := by
  intro l
  induction l with
  | nil => intro _; rfl
  | cons x ls ih =>
    intro hp
    rw [List.pairwise_cons] at hp
    obtain ⟨hx, hls⟩ := hp
    simp only [isort]
    rw [ih hls]
    refine insertS_eq_cons lt x ls fun z hz => ?_
    exact hx z (List.mem_of_mem_head? (Option.mem_def.mpr hz))

theorem filter_insertS_neg {α : Type} (lt : α → α → Bool) (p : α → Bool) (x : α)
    (hx : p x = false) :
    ∀ l : List α, (insertS lt x l).filter p = l.filter p := by
  intro l
  induction l with
  | nil => simp [insertS, hx]
  | cons y ys ih =>
    simp only [insertS]
    split
    · by_cases hy : p y
      · simp [List.filter_cons, hy, ih]
      · simp [List.filter_cons, hy, ih]
    · simp [List.filter_cons, hx]

theorem filter_insertS_pos {α : Type} (lt : α → α → Bool) (p : α → Bool)
    (hup : ∀ a b, lt a b = true → p b = true → p a = true)
    (hntrans : ∀ a b c, lt b a = false → lt c b = false → lt c a = false)
    (x : α) (hx : p x = true) :
    ∀ l : List α, l.Pairwise (fun a b => lt b a = false) →
      (insertS lt x l).filter p = insertS lt x (l.filter p) := by
  intro l
  induction l with
  | nil => simp [insertS, hx]
  | cons y ys ih =>
    intro hp
    rw [List.pairwise_cons] at hp
    obtain ⟨hy, hys⟩ := hp
    simp only [insertS]
    split
    case isTrue h =>
      have hpy : p y = true := hup y x h hx
      rw [List.filter_cons_of_pos hpy, ih hys, List.filter_cons_of_pos hpy]
      simp [insertS, h]
    case isFalse h =>
      have hyx : lt y x = false := by simpa using h
      by_cases hpy : p y = true
      · rw [List.filter_cons_of_pos hx, List.filter_cons_of_pos hpy]
        simp [insertS, hyx]
      · have hpy' : p y = false := by simpa using hpy
        rw [List.filter_cons_of_pos hx, List.filter_cons_of_neg (by simp [hpy'])]
        refine (insertS_eq_cons lt x (ys.filter p) fun z hz => ?_).symm
        have hzmem : z ∈ ys.filter p := List.mem_of_mem_head? (Option.mem_def.mpr hz)
        have hzys : z ∈ ys := (List.filter_sublist ys).subset hzmem
        exact hntrans x y z hyx (hy z hzys)

theorem isort_filter {α : Type} (lt : α → α → Bool) (p : α → Bool)
    (hasym : ∀ a b, lt a b = true → lt b a = false)
    (hntrans : ∀ a b c, lt b a = false → lt c b = false → lt c a = false)
    (hup : ∀ a b, lt a b = true → p b = true → p a = true) :
    ∀ l : List α, isort lt (l.filter p) = (isort lt l).filter p := by
  intro l
  induction l with
  | nil => rfl
  | cons x ls ih =>
    by_cases hx : p x = true
    · rw [List.filter_cons_of_pos hx]
      simp only [isort]
      rw [ih, filter_insertS_pos lt p hup hntrans x hx _
        (isort_pairwise lt hasym hntrans ls)]
    · have hx' : p x = false := by simpa using hx
      rw [List.filter_cons_of_neg (by simp [hx'])]
      simp only [isort]
      rw [ih, filter_insertS_neg lt p x hx']

theorem filter_eq_takeWhile_of_sorted {α : Type} (p : α → Bool) (R : α → α → Prop)
    (hup : ∀ a b, R a b → p b = true → p a = true) :
    ∀ l : List α, l.Pairwise R → l.filter p = l.takeWhile p := by
  intro l
  induction l with
  | nil => intro _; rfl
  | cons x ls ih =>
    intro hp
    rw [List.pairwise_cons] at hp
    obtain ⟨hx, hls⟩ := hp
    by_cases hpx : p x = true
    · rw [List.filter_cons_of_pos hpx, List.takeWhile_cons_of_pos hpx, ih hls]
    · have hpx' : ¬ p x := by simpa using hpx
      rw [List.filter_cons_of_neg hpx', List.takeWhile_cons_of_neg hpx']
      refine List.filter_eq_nil_iff.mpr fun z hz hpz => ?_
      exact hpx' (hup x z (hx z hz) hpz)

/- ### Lemmas about greedy suppression -/

theorem suppress_nil (t : ℚ) : suppress t [] = [] := by
  simp [suppress]

theorem suppress_cons (t : ℚ) (c : Cand) (rest : List Cand) :
    suppress t (c :: rest) =
      c :: suppress t (rest.filter (fun d => decide (iou c.box d.box ≤ t))) := by
  simp [suppress]

theorem suppress_sublist_aux (t : ℚ) :
    ∀ (n : ℕ) (l : List Cand), l.length ≤ n → (suppress t l).Sublist l := by
  intro n
  induction n with
  | zero =>
    intro l h
    have hl : l = [] := List.eq_nil_of_length_eq_zero (Nat.le_zero.mp h)
    subst hl
    simp [suppress]
  | succ n ih =>
    intro l h
    cases l with
    | nil => simp [suppress]
    | cons c rest =>
      rw [suppress_cons]
      refine List.Sublist.cons₂ c ?_
      refine (ih _ (le_trans (List.length_filter_le _ _) (by simpa using h))).trans ?_
      exact List.filter_sublist rest

theorem suppress_sublist (t : ℚ) (l : List Cand) : (suppress t l).Sublist l :=
  suppress_sublist_aux t l.length l (le_refl _)

theorem suppress_append_length_aux (t : ℚ) :
    ∀ (n : ℕ) (a b : List Cand), a.length ≤ n →
      (suppress t a).length ≤ (suppress t (a ++ b)).length := by
  intro n
  induction n with
  | zero =>
    intro a b h
    have ha : a = [] := List.eq_nil_of_length_eq_zero (Nat.le_zero.mp h)
    subst ha
    simp [suppress]
  | succ n ih =>
    intro a b h
    cases a with
    | nil => simp [suppress]
    | cons c a' =>
      rw [List.cons_append, suppress_cons, suppress_cons, List.filter_append]
      simp only [List.length_cons]
      exact Nat.succ_le_succ
        (ih _ _ (le_trans (List.length_filter_le _ _) (by simpa using h)))

theorem suppress_length_mono (t : ℚ) (a b : List Cand) :
    (suppress t a).length ≤ (suppress t (a ++ b)).length :=
  suppress_append_length_aux t a.length a b (le_refl _)

theorem suppress_pairwise_aux (t : ℚ) :
    ∀ (n : ℕ) (l : List Cand), l.length ≤ n →
      (suppress t l).Pairwise (fun a b => iou a.box b.box ≤ t) := by
  intro n
  induction n with
  | zero =>
    intro l h
    have hl : l = [] := List.eq_nil_of_length_eq_zero (Nat.le_zero.mp h)
    subst hl
    simp [suppress]
  | succ n ih =>
    intro l h
    cases l with
    | nil => simp [suppress]
    | cons c rest =>
      rw [suppress_cons, List.pairwise_cons]
      constructor
      · intro z hz
        have hz1 : z ∈ rest.filter (fun d => decide (iou c.box d.box ≤ t)) :=
          (suppress_sublist t _).subset hz
        exact of_decide_eq_true (List.mem_filter.mp hz1).2
      · exact ih _ (le_trans (List.length_filter_le _ _) (by simpa using h))

theorem suppress_pairwise (t : ℚ) (l : List Cand) :
    (suppress t l).Pairwise (fun a b => iou a.box b.box ≤ t) :=
  suppress_pairwise_aux t l.length l (le_refl _)

theorem suppress_of_pairwise_aux (t : ℚ) :
    ∀ (n : ℕ) (l : List Cand), l.length ≤ n →
      l.Pairwise (fun a b => iou a.box b.box ≤ t) → suppress t l = l := by
  intro n
  induction n with
  | zero =>
    intro l h _
    have hl : l = [] := List.eq_nil_of_length_eq_zero (Nat.le_zero.mp h)
    subst hl
    simp [suppress]
  | succ n ih =>
    intro l h hp
    cases l with
    | nil => simp [suppress]
    | cons c rest =>
      rw [List.pairwise_cons] at hp
      obtain ⟨hc, hrest⟩ := hp
      rw [suppress_cons]
      have hf : rest.filter (fun d => decide (iou c.box d.box ≤ t)) = rest :=
        List.filter_eq_self.mpr fun z hz => decide_eq_true (hc z hz)
      rw [hf, ih rest (by simpa using h) hrest]

theorem suppress_of_pairwise (t : ℚ) (l : List Cand)
    (hp : l.Pairwise (fun a b => iou a.box b.box ≤ t)) : suppress t l = l :=
  suppress_of_pairwise_aux t l.length l (le_refl _) hp

/- ### Facts about the confidence comparator and the IoU -/

theorem ltConf_asym : ∀ a b : Cand, ltConf a b = true → ltConf b a = false := by
  intro a b h
  simp only [ltConf, decide_eq_true_eq] at h
  simp only [ltConf, decide_eq_false_iff_not]
  exact not_lt_of_gt h

theorem ltConf_ntrans :
    ∀ a b c : Cand, ltConf b a = false → ltConf c b = false → ltConf c a = false := by
  intro a b c h1 h2
  simp only [ltConf, decide_eq_false_iff_not, not_lt] at h1 h2 ⊢
  exact le_trans h2 h1

theorem iou_comm (a b : ℚ × ℚ × ℚ × ℚ) : iou a b = iou b a := by
  simp only [iou]
  rw [min_comm a.2.2.1 b.2.2.1, max_comm a.1 b.1, min_comm a.2.2.2 b.2.2.2,
    max_comm a.2.1 b.2.1, add_comm (boxArea a) (boxArea b)]

/-- Claim C5: the greedy suppression step is idempotent — running NMS on its
own already-suppressed output returns the same detections — and no pair of
boxes in the output has Intersection-over-Union exceeding `iouTh`. -/
theorem nms_idempotent (probTh iouTh : ℚ) (cands : List Cand) :
    nmsBoxesM probTh iouTh (nmsBoxesM probTh iouTh cands) =
        nmsBoxesM probTh iouTh cands ∧
      (nmsBoxesM probTh iouTh cands).Pairwise
        (fun a b => iou a.box b.box ≤ iouTh ∧ iou b.box a.box ≤ iouTh) := by
  set s := isort ltConf (cands.filter (fun c => decide (probTh ≤ c.conf))) with hs
  have hsorted : s.Pairwise (fun a b => ltConf b a = false) :=
    isort_pairwise ltConf ltConf_asym ltConf_ntrans _
  have hout : nmsBoxesM probTh iouTh cands = suppress iouTh s := rfl
  have hsub : (suppress iouTh s).Sublist s := suppress_sublist iouTh s
  have hpair : (suppress iouTh s).Pairwise (fun a b => iou a.box b.box ≤ iouTh) :=
    suppress_pairwise iouTh s
  constructor
  · rw [hout]
    unfold nmsBoxesM
    have h1 : (suppress iouTh s).filter (fun c => decide (probTh ≤ c.conf)) =
        suppress iouTh s := by
      refine List.filter_eq_self.mpr fun z hz => ?_
      have hzs : z ∈ s := hsub.subset hz
      have hzf : z ∈ cands.filter (fun c => decide (probTh ≤ c.conf)) :=
        (isort_perm ltConf _).mem_iff.mp hzs
      exact (List.mem_filter.mp hzf).2
    rw [h1, isort_eq_self ltConf _ (hsorted.sublist hsub)]
    exact suppress_of_pairwise iouTh _ hpair
  · rw [hout]
    exact hpair.imp fun h => ⟨h, by rwa [iou_comm]⟩

/-- Claim C4: for a fixed raw prediction, raising `prob_threshold` never
increases the number of detections returned by post-processing. -/
theorem threshold_monotone (boxes : List (ℚ × ℚ × ℚ × ℚ)) (scores : List (List ℚ))
    (iouTh t1 t2 : ℚ) (h12 : t1 ≤ t2) :
    (post_process_dets boxes scores t2 iouTh).length ≤
      (post_process_dets boxes scores t1 iouTh).length := by
  unfold post_process_dets nmsBoxesM
  set cands := mkCands boxes scores with hcands
  set p1 : Cand → Bool := fun c => decide (t1 ≤ c.conf) with hp1
  set p2 : Cand → Bool := fun c => decide (t2 ≤ c.conf) with hp2
  have hup : ∀ a b : Cand, ltConf a b = true → p2 b = true → p2 a = true := by
    intro a b hab hb
    simp only [ltConf, decide_eq_true_eq] at hab
    simp only [hp2, decide_eq_true_eq] at hb ⊢
    exact le_of_lt (lt_of_le_of_lt hb hab)
  have hupR : ∀ a b : Cand, (fun a b : Cand => ltConf b a = false) a b →
      p2 b = true → p2 a = true := by
    intro a b hab hb
    simp only [ltConf, decide_eq_false_iff_not, not_lt] at hab
    simp only [hp2, decide_eq_true_eq] at hb ⊢
    exact le_trans hb hab
  have hfilter : cands.filter p2 = (cands.filter p1).filter p2 := by
    rw [List.filter_filter]
    refine List.filter_congr fun c _ => ?_
    by_cases h : t2 ≤ c.conf
    · have h1 : t1 ≤ c.conf := le_trans h12 h
      simp [hp1, hp2, h, h1]
    · simp [hp2, h]
  set s1 := isort ltConf (cands.filter p1) with hs1
  have hcomm : isort ltConf ((cands.filter p1).filter p2) = s1.filter p2 :=
    isort_filter ltConf p2 ltConf_asym ltConf_ntrans hup (cands.filter p1)
  have hsorted : s1.Pairwise (fun a b => ltConf b a = false) :=
    isort_pairwise ltConf ltConf_asym ltConf_ntrans _
  have htake : s1.filter p2 = s1.takeWhile p2 :=
    filter_eq_takeWhile_of_sorted p2 _ hupR s1 hsorted
  rw [hfilter, hcomm, htake]
  have hmono := suppress_length_mono iouTh (s1.takeWhile p2) (s1.dropWhile p2)
  rwa [List.takeWhile_append_dropWhile] at hmono

/-- Witness for `threshold_monotone`: one candidate, thresholds 0 ≤ 1. -/
theorem threshold_monotone_witness :
    (post_process_dets [(0, 0, 1, 1)] [[1/2]] 1 0).length ≤
      (post_process_dets [(0, 0, 1, 1)] [[1/2]] 0 0).length :=
  threshold_monotone [(0, 0, 1, 1)] [[1/2]] 0 0 1 (by norm_num)

/-- Claim C6: empty inputs yield empty outputs, never an error — box
reconstruction with zero-length anchor or distance arrays returns an empty box
set, and when zero candidates pass the confidence threshold the suppression
stage returns an empty detection sequence. -/
theorem empty_inputs_empty_outputs (points : List (ℚ × ℚ))
    (distance : List (ℚ × ℚ × ℚ × ℚ)) (maxShape : Option (ℚ × ℚ))
    (cands : List Cand) (probTh iouTh : ℚ)
    (h : ∀ c ∈ cands, c.conf < probTh) :
    distance2bbox [] distance maxShape = [] ∧
      distance2bbox points [] maxShape = [] ∧
      nmsBoxesM probTh iouTh cands = [] := by
  refine ⟨by simp [distance2bbox], by simp [distance2bbox], ?_⟩
  unfold nmsBoxesM
  have hf : cands.filter (fun c => decide (probTh ≤ c.conf)) = [] := by
    refine List.filter_eq_nil_iff.mpr fun c hc => ?_
    simp only [decide_eq_true_eq, not_le]
    exact h c hc
  rw [hf]
  simp [isort, suppress]

/-- Witness for `empty_inputs_empty_outputs`: a single candidate with
confidence 0 against threshold 1. -/
theorem empty_inputs_empty_outputs_witness :
    distance2bbox [] [(0, 0, 0, 0)] none = [] ∧
      distance2bbox [(0, 0)] [] none = [] ∧
      nmsBoxesM 1 0 [⟨(0, 0, 0, 0), 0, 0⟩] = [] :=
  empty_inputs_empty_outputs [(0, 0)] [(0, 0, 0, 0)] none
    [⟨(0, 0, 0, 0), 0, 0⟩] 1 0 (by decide)

/- ### Configuration-time threshold handling (claim C7) -/

/-- Claim C7 counterexample: the claim "construction rejects configurations
whose thresholds lie outside [0, 1]" is false — constructing with
`prob_threshold = 2` succeeds (`NanoDet.__init__` stores the thresholds
without any validation). -/
theorem threshold_validation_counterexample :
    ¬ (∀ probTh iouTh : ℚ,
        (probTh < 0 ∨ 1 < probTh ∨ iouTh < 0 ∨ 1 < iouTh) →
          (nanodetInit probTh iouTh).toOption = none) := by
  intro h
  have h2 := h 2 0 (by norm_num)
  simp [nanodetInit, Except.toOption] at h2

/-- Claim C7 (amended): construction performs no threshold validation — for
every `prob_threshold` and `iou_threshold`, in range or not, it succeeds and
stores the given values unchanged (with `keep_ratio = False` and the fixed
strides). -/
theorem threshold_no_validation (probTh iouTh : ℚ) :
    nanodetInit probTh iouTh = .ok ⟨probTh, iouTh, false, nanodetStrides⟩ := rfl

/- ### Coordinate remapping (claim C8) -/

theorem remap_coord_eq (v W : ℚ) (S : ℤ) (hv0 : 0 ≤ v) (hvW : v ≤ W) (hW : 0 < W)
    (hS : 0 ≤ S) :
    specRemapCoord v 0 ((S : ℚ) / W) S = ⌊v * ((S : ℚ) / W)⌋ ∧
      0 ≤ ⌊v * ((S : ℚ) / W)⌋ ∧ ⌊v * ((S : ℚ) / W)⌋ ≤ S ∧
      pytrunc ((v - 0) * ((S : ℚ) / W)) = ⌊v * ((S : ℚ) / W)⌋ := by
  have hr : 0 ≤ (S : ℚ) / W := div_nonneg (by exact_mod_cast hS) hW.le
  have hq0 : 0 ≤ v * ((S : ℚ) / W) := mul_nonneg hv0 hr
  have hqS : v * ((S : ℚ) / W) ≤ (S : ℚ) := by
    calc v * ((S : ℚ) / W) ≤ W * ((S : ℚ) / W) := mul_le_mul_of_nonneg_right hvW hr
      _ = (S : ℚ) := by field_simp
  refine ⟨?_, Int.floor_nonneg.mpr hq0, ?_, ?_⟩
  · unfold specRemapCoord
    rw [sub_zero, max_eq_left hq0, min_eq_left hqS]
    exact if_pos hq0
  · calc ⌊v * ((S : ℚ) / W)⌋ ≤ ⌊((S : ℤ) : ℚ)⌋ := Int.floor_le_floor hqS
      _ = S := Int.floor_intCast S
  · rw [sub_zero]
    exact if_pos hq0

/-- Claim C8: for every detection surviving suppression — whose box
coordinates therefore lie within the tensor bounds `[0, W] × [0, H]` thanks to
the clipping in `distance2bbox` — and with the zero letterbox padding that
`detect` actually uses, the coordinate remapping of `detect` (lines 302-309)
equals the spec's description: subtract the padding, multiply by the per-axis
inverse scale ratio, clip to `[0, image_width]` on x and `[0, image_height]`
on y, and round to integer pixels. -/
theorem remap_matches_spec (b : ℚ × ℚ × ℚ × ℚ) (H W : ℚ) (SH SW : ℤ)
    (hx1 : 0 ≤ b.1) (hx1W : b.1 ≤ W) (hy1 : 0 ≤ b.2.1) (hy1H : b.2.1 ≤ H)
    (hx2 : 0 ≤ b.2.2.1) (hx2W : b.2.2.1 ≤ W) (hy2 : 0 ≤ b.2.2.2) (hy2H : b.2.2.2 ≤ H)
    (hH : 0 < H) (hW : 0 < W) (hSH : 0 ≤ SH) (hSW : 0 ≤ SW) :
    remapBox b 0 0 ((SH : ℚ) / H) ((SW : ℚ) / W) SH SW =
      (specRemapCoord b.1 0 ((SW : ℚ) / W) SW,
       specRemapCoord b.2.1 0 ((SH : ℚ) / H) SH,
       specRemapCoord b.2.2.1 0 ((SW : ℚ) / W) SW,
       specRemapCoord b.2.2.2 0 ((SH : ℚ) / H) SH) := by
  obtain ⟨e1, f1, g1, p1⟩ := remap_coord_eq b.1 W SW hx1 hx1W hW hSW
  obtain ⟨e2, f2, g2, p2⟩ := remap_coord_eq b.2.1 H SH hy1 hy1H hH hSH
  obtain ⟨e3, f3, g3, p3⟩ := remap_coord_eq b.2.2.1 W SW hx2 hx2W hW hSW
  obtain ⟨e4, f4, g4, p4⟩ := remap_coord_eq b.2.2.2 H SH hy2 hy2H hH hSH
  simp only [remapBox, Prod.mk.injEq]
  refine ⟨?_, ?_, ?_, ?_⟩
  · rw [p1, max_eq_left f1]
    exact e1.symm
  · rw [p2, max_eq_left f2]
    exact e2.symm
  · rw [p3, min_eq_left g3]
    exact e3.symm
  · rw [p4, min_eq_left g4]
    exact e4.symm

/-- Witness for `remap_matches_spec`: box `(0, 0, 100, 100)` in a 320×320
tensor mapped back to a 640×640 source image. -/
theorem remap_matches_spec_witness :
    remapBox (0, 0, 100, 100) 0 0 (((640 : ℤ) : ℚ) / 320) (((640 : ℤ) : ℚ) / 320)
        640 640 =
      (specRemapCoord 0 0 (((640 : ℤ) : ℚ) / 320) 640,
       specRemapCoord 0 0 (((640 : ℤ) : ℚ) / 320) 640,
       specRemapCoord 100 0 (((640 : ℤ) : ℚ) / 320) 640,
       specRemapCoord 100 0 (((640 : ℤ) : ℚ) / 320) 640) :=
  remap_matches_spec (0, 0, 100, 100) 320 320 640 640
    (by norm_num) (by norm_num) (by norm_num) (by norm_num)
    (by norm_num) (by norm_num) (by norm_num) (by norm_num)
    (by norm_num) (by norm_num) (by norm_num) (by norm_num)

/- ### No letterboxing in the detect pipeline (claim C10) -/

/-- Claim C10: the detect pipeline never letterboxes — `keep_ratio` is
hardcoded to `False` at construction; `resize_image` therefore stretches every
source image to the full model input shape with `top = 0` and `left = 0`; and
with zero padding the remapping step reduces to pure per-axis scaling with no
padding subtraction. -/
theorem no_letterbox (probTh iouTh : ℚ) (input_h input_w srch srcw : ℕ)
    (b : ℚ × ℚ × ℚ × ℚ) (rH rW : ℚ) (SH SW : ℤ) :
    (nanodetInit probTh iouTh).map (fun cfg => cfg.keepAspect) = .ok false ∧
      (nanodetInit probTh iouTh).map
          (fun cfg => resize_geometry input_h input_w srch srcw cfg.keepAspect) =
        .ok (input_h, input_w, 0, 0) ∧
      remapBox b 0 0 rH rW SH SW = scaleRemapBox b rH rW SH SW := by
  refine ⟨rfl, ?_, ?_⟩
  · simp [nanodetInit, Except.map, resize_geometry]
  · simp [remapBox, scaleRemapBox]

/- ### The per-level pruner (claim C3) -/

theorem getD_replicate_zero (n i : ℕ) :
    (List.replicate n (0 : ℚ)).getD i 0 = 0 := by
  rw [List.getD_eq_getElem?_getD, List.getElem?_replicate]
  split
  · rfl
  · rfl

theorem range_argsort_replicate (n : ℕ) :
    IsArgsortOf (List.replicate n (0 : ℚ)) (List.range n) := by
  constructor
  · rw [List.length_replicate]
  · rw [List.pairwise_iff_getElem]
    intro i j hi hj hij
    rw [getD_replicate_zero, getD_replicate_zero]

/-- Claim C3 (amended): for every level whose candidate count exceeds the
pre-NMS cap `nms_pre = 1000`, and for every index order the argsort may return
(numpy's default sort is documented as unstable, so the order of equal scores
is unspecified), the pruner retains exactly 1000 candidates, the retained list
is ranked by per-anchor maximum class score descending, every retained
candidate's score is at least every dropped candidate's score, and every
retained index is a valid anchor index.  No tie-break direction among equal
scores is guaranteed. -/
theorem level_pruner_amended (scores : List ℚ) (inds : List ℕ)
    (hc : IsArgsortOf scores inds) (h : 1000 < scores.length) :
    (topkOf inds).length = 1000 ∧
      (topkOf inds).Pairwise (fun i j => scores.getD j 0 ≤ scores.getD i 0) ∧
      (∀ i ∈ topkOf inds, ∀ j ∈ inds.reverse.drop 1000,
        scores.getD j 0 ≤ scores.getD i 0) ∧
      (∀ i ∈ topkOf inds, i < scores.length) := by
  obtain ⟨hperm, hsort⟩ := hc
  have hlen : inds.length = scores.length := by
    have hl := hperm.length_eq
    simpa using hl
  have hrev : inds.reverse.Pairwise
      (fun i j => scores.getD j 0 ≤ scores.getD i 0) :=
    List.pairwise_reverse.mpr hsort
  refine ⟨?_, ?_, ?_, ?_⟩
  · simp only [topkOf, List.length_take, List.length_reverse, hlen]
    omega
  · exact hrev.sublist (List.take_sublist _ _)
  · intro i hi j hj
    have hsplit := hrev
    rw [← List.take_append_drop 1000 inds.reverse] at hsplit
    exact (List.pairwise_append.mp hsplit).2.2 i hi j hj
  · intro i hi
    have h1 : i ∈ inds.reverse := (List.take_sublist _ _).subset hi
    have h2 : i ∈ inds := List.mem_reverse.mp h1
    have h3 : i ∈ List.range scores.length := hperm.mem_iff.mp h2
    exact List.mem_range.mp h3

/-- Witness for `level_pruner_amended`: 1001 equal scores with the identity
index order, which satisfies the argsort contract. -/
theorem level_pruner_amended_witness :
    (topkOf (List.range 1001)).length = 1000 ∧
      (topkOf (List.range 1001)).Pairwise
        (fun i j => (List.replicate 1001 (0 : ℚ)).getD j 0 ≤
          (List.replicate 1001 (0 : ℚ)).getD i 0) ∧
      (∀ i ∈ topkOf (List.range 1001),
        ∀ j ∈ (List.range 1001).reverse.drop 1000,
          (List.replicate 1001 (0 : ℚ)).getD j 0 ≤
            (List.replicate 1001 (0 : ℚ)).getD i 0) ∧
      (∀ i ∈ topkOf (List.range 1001), i < (List.replicate 1001 (0 : ℚ)).length) :=
  level_pruner_amended (List.replicate 1001 0) (List.range 1001)
    (range_argsort_replicate 1001)
    (by simp only [List.length_replicate]; norm_num)

theorem enum_sorted_claim_replicate (n : ℕ) :
    isort ltClaimDesc ((List.replicate n (0 : ℚ)).enum) =
      (List.replicate n (0 : ℚ)).enum := by
  refine isort_eq_self ltClaimDesc _ ?_
  rw [List.pairwise_iff_getElem]
  intro i j hi hj hij
  simp only [List.enum_eq_enumFrom, List.getElem_enumFrom, ltClaimDesc,
    List.getElem_replicate, decide_eq_false_iff_not]
  rintro (h | ⟨_, h⟩)
  · exact lt_irrefl _ h
  · omega

set_option maxRecDepth 100000 in
/-- Claim C3 counterexample: the claimed lower-index-wins stable ranking is
not guaranteed by the code.  Read as a guarantee, the claim must hold for
every index order the argsort may return (numpy's default sort is documented
as unstable, with the order of equal scores unspecified); with 1001 equal
scores the identity order satisfies the argsort contract, and
`argsort()[::-1][0:1000]` then keeps `[1000, 999, …, 1]` — index 0, which the
claim ranks first, is dropped entirely instead of winning its ties. -/
theorem level_pruner_claim_counterexample :
    ¬ (∀ (scores : List ℚ) (inds : List ℕ), IsArgsortOf scores inds →
        1000 < scores.length → topkOf inds = claimPruneIdx scores) := by
  intro hclaim
  have h := hclaim (List.replicate 1001 (0 : ℚ)) (List.range 1001)
    (range_argsort_replicate 1001)
    (by simp only [List.length_replicate]; norm_num)
  unfold claimPruneIdx at h
  rw [enum_sorted_claim_replicate] at h
  exact absurd h (by decide)
